import Mathlib

/-!
A shallow embedding of the A* pathfinding engine from `src/lib.rs`
(crate `a-star_traitbased`), together with theorems checking the
natural-language specification against it.

The Rust code is translated as follows:
* `(usize, usize)` positions become `Nat × Nat`;
* the `PathGenerator` trait becomes a structure of functions;
* `Node` (with its `Rc`-shared `comes_from` back reference) becomes an
  inductive type whose `comes_from` field is an `Option Node`;
* the unbounded `loop` in `AStar::run` becomes a fuel-indexed recursion:
  `none` means the fuel ran out, `some none` is the Rust `None`
  ("no path"), and `some (some p)` is the Rust `Some(p)`;
* `Vec::sort` (a stable sort by the `Ord` instance, which compares only
  the `heuristic_cost` field) is modelled by a stable insertion sort:
  stability makes the output of any two stable sorts identical, so the
  model selects exactly the element the Rust code selects.
-/

/-- Rust `(usize, usize)`: a grid position `(row, column)`. -/
abbrev Pos := Nat × Nat

/-- Rust `(Option<usize>, Option<usize>)`: a partially wildcarded target. -/
abbrev Target := Option Nat × Option Nat

/-- The `PathGenerator` trait from `src/lib.rs`, as a record of functions. -/
structure PathGenerator where
  generate_paths : Pos → List Pos
  calculate_heuristic_cost : Pos → Target → Nat
  calculate_cost : Pos → Pos → Nat

/-- The `Node` struct from `src/lib.rs`.  As in the source, the field
named `heuristic_cost` stores the *total* cost `cost + heuristic`
(see `AStar::create_new_node`, line 94 of the source). -/
inductive Node : Type where
  | mk : Pos → Option Node → Nat → Nat → Node

def Node.position : Node → Pos
  | .mk p _ _ _ => p

def Node.comes_from : Node → Option Node
  | .mk _ c _ _ => c

def Node.cost : Node → Nat
  | .mk _ _ c _ => c

def Node.heuristic_cost : Node → Nat
  | .mk _ _ _ h => h

/-- `Node::new`: the synthetic start node (`cost = 0`, no predecessor). -/
def Node.new (position : Pos) (heuristic_cost : Nat) : Node :=
  .mk position none 0 heuristic_cost

namespace AStar

/-- `AStar::target_is_reached`: each present axis constraint must equal
the node position's corresponding coordinate. -/
def target_is_reached (target : Target) (position : Pos) : Bool :=
  if target.fst.isSome && target.fst.iget != position.fst then false
  else if target.snd.isSome && target.snd.iget != position.snd then false
  else true

/-- `AStar::reconstruct_path`: the node's position followed by the
positions along its predecessor chain (target-to-start order). -/
def reconstruct_path : Node → List Pos
  | .mk p none _ _ => [p]
  | .mk p (some prev) _ _ => p :: reconstruct_path prev

/-- `AStar::pull_from_closed_by_position`: first closed node (in insertion
order) with the given position. -/
def pull_from_closed_by_position : List Node → Pos → Option Node
  | [], _ => none
  | n :: rest, p =>
    if n.position = p then some n else pull_from_closed_by_position rest p

end AStar

/-- The `NextNodeResult` enum from `src/lib.rs`. -/
inductive NextNodeResult (T : Type) where
  | Ok (t : T)
  | Finished

namespace AStar

/-- `AStar::create_new_node`.  Note that the source checks
`target_is_reached` on `old_node` — the node popped from the frontier —
not on `new_position`. -/
def create_new_node (target : Target) (old_node : Node) (new_position : Pos)
    (cost : Nat) (heuristic_cost : Nat) : NextNodeResult Node :=
  if target_is_reached target old_node.position then .Finished
  else
    let new_cost := cost + old_node.cost
    .Ok (.mk new_position (some old_node) new_cost (heuristic_cost + new_cost))

end AStar

/-- One step of a stable insertion sort on the `heuristic_cost` (total
cost) field: a new element goes after every existing element it does not
strictly beat, so elements that compare equal keep their relative order. -/
def insertNode (n : Node) : List Node → List Node
  | [] => [n]
  | m :: rest =>
    if n.heuristic_cost < m.heuristic_cost then n :: m :: rest
    else m :: insertNode n rest

/-- Stable sort of the frontier by `heuristic_cost`, modelling
`Vec::sort` under the `Ord for Node` instance of the source (which
compares only `heuristic_cost`). -/
def sortNodes (l : List Node) : List Node :=
  l.foldl (fun acc n => insertNode n acc) []

/-- Outcome of the `for possible_path in possible_paths` loop body inside
`AStar::run`: either the list of nodes pushed onto the frontier, or early
exit with `Finished`. -/
inductive ExpandResult where
  | Ok (nodes : List Node)
  | Finished

namespace AStar

/-- The `for possible_path in possible_paths` loop of `AStar::run`:
neighbors whose position is already in the closed set are skipped, the
rest go through `create_new_node`; `Finished` aborts the loop. -/
def process_paths (g : PathGenerator) (target : Target) (closed_nodes : List Node)
    (top : Node) : List Pos → ExpandResult
  | [] => .Ok []
  | p :: rest =>
    if (pull_from_closed_by_position closed_nodes p).isSome then
      process_paths g target closed_nodes top rest
    else
      match create_new_node target top p (g.calculate_cost top.position p)
          (g.calculate_heuristic_cost p target) with
      | .Ok v =>
        match process_paths g target closed_nodes top rest with
        | .Ok vs => .Ok (v :: vs)
        | .Finished => .Finished
      | .Finished => .Finished

end AStar

/-- Outcome of one iteration of the `loop` in `AStar::run`. -/
inductive StepResult where
  | NoPath
  | Found (path : List Pos)
  | Continue (que : List Node) (closed_nodes : List Node)

namespace AStar

/-- One iteration of the `loop` in `AStar::run`: return `None` on an
empty frontier, otherwise sort, pop the head, expand it, and either
finish with the popped node's reconstructed path or push the new nodes
and close the popped node. -/
def step (g : PathGenerator) (target : Target) (que closed_nodes : List Node) :
    StepResult :=
  match sortNodes que with
  | [] => .NoPath
  | top :: rest =>
    match process_paths g target closed_nodes top (g.generate_paths top.position) with
    | .Finished => .Found (reconstruct_path top)
    | .Ok vs => .Continue (rest ++ vs) (closed_nodes ++ [top])

/-- The `loop` in `AStar::run`, indexed by fuel.  `none` = fuel ran out;
`some none` = the Rust `None`; `some (some p)` = the Rust `Some(p)`. -/
def runLoop (g : PathGenerator) (target : Target) :
    Nat → List Node → List Node → Option (Option (List Pos))
  | 0, _, _ => none
  | fuel + 1, que, closed_nodes =>
    match step g target que closed_nodes with
    | .NoPath => some none
    | .Found path => some (some path)
    | .Continue que2 closed2 => runLoop g target fuel que2 closed2

/-- `AStar::run`: seed the frontier with the synthetic start node and
iterate. -/
def run (g : PathGenerator) (start : Pos) (target : Target) (fuel : Nat) :
    Option (Option (List Pos)) :=
  runLoop g target fuel [Node.new start (g.calculate_heuristic_cost start target)] []

/-- Iterate `step` for a fixed number of `Continue` transitions, exposing
the frontier and closed set; `none` if the loop exits earlier. -/
def stepN (g : PathGenerator) (target : Target) :
    Nat → List Node → List Node → Option (List Node × List Node)
  | 0, que, closed_nodes => some (que, closed_nodes)
  | n + 1, que, closed_nodes =>
    match step g target que closed_nodes with
    | .Continue que2 closed2 => stepN g target n que2 closed2
    | _ => none

end AStar

/-! ## The embedded test fixture (`mod test` in `src/lib.rs`) -/

/-- `calc_usize_diff` from the test module: absolute difference. -/
def calc_usize_diff (x y : Nat) : Nat :=
  if x > y then x - y else y - x

/-- Largest `k` below the second argument with `k * k ≤ n`. -/
def isqrtGo (n : Nat) : Nat → Nat
  | 0 => 0
  | k + 1 => if (k + 1) * (k + 1) ≤ n then k + 1 else isqrtGo n k

/-- Integer square root.  Models the fixture's
`f64::sqrt(x as f64) as usize`: for the small integer inputs arising in
the fixture, the exactly-rounded binary64 square root truncated to an
integer is exactly the integer square root. -/
def isqrt (n : Nat) : Nat := isqrtGo n n

/-- `Map::path_is_possible`: `None` on a blocked cell. -/
def path_is_possible (blocks : List Pos) (possible_path : Pos) : Option Pos :=
  if blocks.contains possible_path then none else some possible_path

/-- `Map::generate_paths` from the test module: the three decrement
neighbors (only when *both* coordinates are nonzero — exactly the
source's guard), then the three increment neighbors, blocked cells
filtered out. -/
def Map.generate_paths (blocks : List Pos) (from_position : Pos) : List Pos :=
  (if from_position.fst ≠ 0 ∧ from_position.snd ≠ 0 then
    [(from_position.fst - 1, from_position.snd - 1),
     (from_position.fst, from_position.snd - 1),
     (from_position.fst - 1, from_position.snd)].filterMap (path_is_possible blocks)
   else []) ++
  [(from_position.fst + 1, from_position.snd + 1),
   (from_position.fst, from_position.snd + 1),
   (from_position.fst + 1, from_position.snd)].filterMap (path_is_possible blocks)

/-- `Map::calculate_heuristic_cost` from the test module.  The source's
`diff ^ 2` is Rust's *bitwise xor* with `2` (not squaring), mirrored by
`^^^` here; `f64::sqrt … as usize` becomes `isqrt`. -/
def Map.calculate_heuristic_cost (position : Pos) (target : Target) : Nat :=
  if target.fst.isNone && target.snd.isNone then 0
  else if target.fst.isNone then calc_usize_diff target.snd.iget position.snd
  else if target.snd.isNone then calc_usize_diff target.fst.iget position.fst
  else isqrt ((calc_usize_diff target.fst.iget position.fst ^^^ 2)
    + (calc_usize_diff target.snd.iget position.snd ^^^ 2))

/-- The `PathGenerator` implementation of `Map`: uniform step cost 1. -/
def Map.toGenerator (blocks : List Pos) : PathGenerator where
  generate_paths := Map.generate_paths blocks
  calculate_heuristic_cost := Map.calculate_heuristic_cost
  calculate_cost := fun _ _ => 1

/-- The `map_fixture` of `test::testrun`: single blocked cell `(2, 2)`. -/
def map_fixture : PathGenerator := Map.toGenerator [(2, 2)]

/-! ## Specification-side notions used by the claims -/

/-- A list in start-to-target order is a chain: each element after the
first is among the neighbors generated from its predecessor. -/
def isChain (g : PathGenerator) : List Pos → Bool
  | x :: y :: rest => (g.generate_paths x).contains y && isChain g (y :: rest)
  | _ => true

/-- A list in target-to-start order (as returned by `AStar::run`) is a
chain read back-to-front: each element was generated from its successor
in the list. -/
def isChainRev (g : PathGenerator) : List Pos → Bool
  | x :: y :: rest => (g.generate_paths y).contains x && isChainRev g (y :: rest)
  | _ => true

/-- Accumulated cost of a start-to-target list: sum of `calculate_cost`
over consecutive pairs, in travel direction. -/
def pathCost (g : PathGenerator) : List Pos → Nat
  | x :: y :: rest => g.calculate_cost x y + pathCost g (y :: rest)
  | _ => 0

/-- Accumulated cost of a target-to-start list (as returned by
`AStar::run`): sum of `calculate_cost` over consecutive pairs, each
taken in travel direction (from the later list element to the earlier). -/
def pathCostRev (g : PathGenerator) : List Pos → Nat
  | x :: y :: rest => g.calculate_cost y x + pathCostRev g (y :: rest)
  | _ => 0

/-- Number of steps (consecutive pairs) of a returned sequence. -/
def stepsOf : List Pos → Nat
  | _ :: y :: rest => stepsOf (y :: rest) + 1
  | _ => 0

/-- A start-to-target chain beginning at `start` whose last element
satisfies the target specification. -/
def satisfyingChainFrom (g : PathGenerator) (target : Target) (start : Pos)
    (l : List Pos) : Prop :=
  isChain g l = true ∧ l.head? = some start ∧
    ∃ e, l.getLast? = some e ∧ AStar.target_is_reached target e = true

/-- The heuristic never overestimates the true remaining cost: it is a
lower bound on the cost of every chain from the position that satisfies
the target specification. -/
def Admissible (g : PathGenerator) (target : Target) : Prop :=
  ∀ p l, satisfyingChainFrom g target p l →
    g.calculate_heuristic_cost p target ≤ pathCost g l

/-- `R` lists every position reachable from `start`: it contains `start`
and is closed under neighbor generation. -/
def ReachSet (g : PathGenerator) (start : Pos) (R : List Pos) : Prop :=
  start ∈ R ∧ ∀ p ∈ R, ∀ q ∈ g.generate_paths p, q ∈ R

/-! ## Concrete generators used to instantiate or refute the claims -/

/-- A generator with no neighbors anywhere. -/
def noNeighbors : PathGenerator where
  generate_paths := fun _ => []
  calculate_heuristic_cost := fun _ _ => 0
  calculate_cost := fun _ _ => 1

/-- Four-state graph `(0,0) → {(0,1), (1,0)}`, `(1,0) → (0,1)`,
`(0,1) → (2,2)`, `(2,2) → (9,9)`.  The direct route to `(0,1)` costs 5,
the detour through `(1,0)` costs 2; the heuristic value 5 at `(1,0)` is
admissible (every satisfying chain from `(1,0)` costs at least 11) but
delays `(1,0)` enough that `(0,1)` is closed with the expensive cost. -/
def cexAdm : PathGenerator where
  generate_paths := fun p =>
    if p = (0, 0) then [(0, 1), (1, 0)]
    else if p = (0, 1) then [(2, 2)]
    else if p = (1, 0) then [(0, 1)]
    else if p = (2, 2) then [(9, 9)]
    else []
  calculate_heuristic_cost := fun p _ => if p = (1, 0) then 5 else 0
  calculate_cost := fun p q =>
    if p = (0, 0) ∧ q = (0, 1) then 5
    else if p = (0, 0) ∧ q = (1, 0) then 1
    else if p = (1, 0) ∧ q = (0, 1) then 1
    else if p = (0, 1) ∧ q = (2, 2) then 10
    else 1

/-- `(0,0) → (1,1)` and `(1,1)` is a dead end. -/
def cexDeadEnd : PathGenerator where
  generate_paths := fun p => if p = (0, 0) then [(1, 1)] else []
  calculate_heuristic_cost := fun _ _ => 0
  calculate_cost := fun _ _ => 1

/-- A second copy of the dead-end graph, used for a different claim. -/
def cexDeadEnd2 : PathGenerator where
  generate_paths := fun p => if p = (0, 0) then [(1, 1)] else []
  calculate_heuristic_cost := fun _ _ => 0
  calculate_cost := fun _ _ => 1

/-- The diamond `(0,0) → {(0,1), (1,0)}`, `(0,1) → (1,1)`,
`(1,0) → (1,1)`: the position `(1,1)` is discovered twice before being
closed, so two frontier entries for it coexist. -/
def cexDiamond : PathGenerator where
  generate_paths := fun p =>
    if p = (0, 0) then [(0, 1), (1, 0)]
    else if p = (0, 1) then [(1, 1)]
    else if p = (1, 0) then [(1, 1)]
    else []
  calculate_heuristic_cost := fun _ _ => 0
  calculate_cost := fun _ _ => 1

/-- A straight column: `(r, c) → (r + 1, c)`. -/
def lineGen : PathGenerator where
  generate_paths := fun p => [(p.fst + 1, p.snd)]
  calculate_heuristic_cost := fun _ _ => 0
  calculate_cost := fun _ _ => 1

/-! ## Invariants and the termination measure -/

/-- Positions of a list of nodes (used for the closed set). -/
def positionsOf (l : List Node) : List Pos := l.map Node.position

/-- A well-formed search node: its reconstructed path is a back-to-front
chain of the generator ending at `start`. -/
def NodeOK (g : PathGenerator) (start : Pos) (n : Node) : Prop :=
  isChainRev g (AStar.reconstruct_path n) = true ∧
    (AStar.reconstruct_path n).getLast? = some start

/-- No element of the list repeats at distance two or more: duplicates
may only be adjacent.  This is the shape of every reconstructed path in
a run: a position can directly follow itself (a self-loop neighbor
discovered while its position is not yet closed) but can never reappear
later, because all earlier chain positions are closed by then. -/
def noFarDup : List Pos → Prop
  | [] => True
  | x :: rest => x ∉ rest.tail ∧ noFarDup rest

/-- Every other element of a list (indices 0, 2, 4, …). -/
def everyOther : List Pos → List Pos
  | [] => []
  | [x] => [x]
  | x :: _ :: rest => x :: everyOther rest

/-- Upper bound on the number of loop iterations a frontier node can
still cause, as a function of how much room its chain has left to grow:
popping a node spends one iteration and spawns at most one node per
generated neighbor, each with strictly less room. -/
def bigW (g : PathGenerator) : Nat → Pos → Nat
  | 0, _ => 1
  | k + 1, p => 1 + ((g.generate_paths p).map (bigW g k)).sum

/-- Iteration bound contributed by one frontier node, over the reachable
set `R`: chains never exceed `2 * R.toFinset.card` positions. -/
def nodeMeasure (g : PathGenerator) (R : List Pos) (n : Node) : Nat :=
  bigW g (2 * R.toFinset.card + 1 - (AStar.reconstruct_path n).length) n.position

/-- Iteration bound contributed by the whole frontier. -/
def queMeasure (g : PathGenerator) (R : List Pos) (que : List Node) : Nat :=
  (que.map (nodeMeasure g R)).sum

/-- The invariant threaded through a run for the termination proof:
every frontier node is well formed, its chain has no far duplicates,
stays inside `R`, and all chain positions after the head are closed. -/
def InvC4 (g : PathGenerator) (start : Pos) (R : List Pos)
    (que closed_nodes : List Node) : Prop :=
  ∀ n ∈ que, NodeOK g start n ∧ noFarDup (AStar.reconstruct_path n) ∧
    (∀ x ∈ AStar.reconstruct_path n, x ∈ R) ∧
    (∀ x ∈ (AStar.reconstruct_path n).tail, x ∈ positionsOf closed_nodes)

/-! ## Basic lemmas about the embedded operations -/

theorem reconstruct_path_head (n : Node) :
    (AStar.reconstruct_path n).head? = some n.position := by
  cases n with
  | mk p c cost h => cases c <;> simp [AStar.reconstruct_path, Node.position]

theorem reconstruct_path_ne_nil (n : Node) : AStar.reconstruct_path n ≠ [] := by
  cases n with
  | mk p c cost h => cases c <;> simp [AStar.reconstruct_path]

theorem insertNode_perm (n : Node) (l : List Node) :
    (insertNode n l).Perm (n :: l) := by
  induction l with
  | nil => simp [insertNode]
  | cons m rest ih =>
    simp only [insertNode]
    by_cases h : n.heuristic_cost < m.heuristic_cost
    · simp [h]
    · simp only [if_neg h]
      exact (ih.cons m).trans (List.Perm.swap n m rest)

theorem foldl_insertNode_perm (l acc : List Node) :
    (l.foldl (fun s n => insertNode n s) acc).Perm (acc ++ l) := by
  induction l generalizing acc with
  | nil => simp
  | cons n rest ih =>
    simp only [List.foldl_cons]
    refine (ih (insertNode n acc)).trans ?_
    refine ((insertNode_perm n acc).append_right rest).trans ?_
    simpa using (List.perm_middle).symm

theorem sortNodes_perm (l : List Node) : (sortNodes l).Perm l := by
  simpa [sortNodes] using foldl_insertNode_perm l []

theorem mem_sortNodes {n : Node} {l : List Node} : n ∈ sortNodes l ↔ n ∈ l :=
  (sortNodes_perm l).mem_iff

theorem sortNodes_eq_nil_iff {l : List Node} : sortNodes l = [] ↔ l = [] := by
  constructor
  · intro h
    have hp : ([] : List Node).Perm l := h ▸ sortNodes_perm l
    exact hp.symm.eq_nil
  · intro h; subst h; rfl

theorem insertNode_pairwise {l : List Node}
    (h : l.Pairwise (fun a b => a.heuristic_cost ≤ b.heuristic_cost)) (n : Node) :
    (insertNode n l).Pairwise (fun a b => a.heuristic_cost ≤ b.heuristic_cost) := by
  induction l with
  | nil => simp [insertNode]
  | cons m rest ih =>
    rcases List.pairwise_cons.mp h with ⟨hm, hrest⟩
    simp only [insertNode]
    by_cases hlt : n.heuristic_cost < m.heuristic_cost
    · rw [if_pos hlt]
      refine List.pairwise_cons.mpr ⟨?_, h⟩
      intro x hx
      rcases List.mem_cons.mp hx with rfl | hx
      · exact Nat.le_of_lt hlt
      · exact Nat.le_trans (Nat.le_of_lt hlt) (hm x hx)
    · rw [if_neg hlt]
      refine List.pairwise_cons.mpr ⟨?_, ih hrest⟩
      intro x hx
      rcases List.mem_cons.mp ((insertNode_perm n rest).mem_iff.mp hx) with rfl | hx
      · exact Nat.le_of_not_lt hlt
      · exact hm x hx

theorem sortNodes_pairwise (l : List Node) :
    (sortNodes l).Pairwise (fun a b => a.heuristic_cost ≤ b.heuristic_cost) := by
  suffices h : ∀ acc : List Node,
      acc.Pairwise (fun a b => a.heuristic_cost ≤ b.heuristic_cost) →
      (l.foldl (fun s n => insertNode n s) acc).Pairwise
        (fun a b => a.heuristic_cost ≤ b.heuristic_cost) from
    h [] (by simp)
  induction l with
  | nil => intro acc hacc; simpa using hacc
  | cons n rest ih =>
    intro acc hacc
    exact ih (insertNode n acc) (insertNode_pairwise hacc n)

theorem create_new_node_eq (target : Target) (top : Node) (p : Pos) (c h : Nat) :
    AStar.create_new_node target top p c h =
      if AStar.target_is_reached target top.position
      then .Finished
      else .Ok (.mk p (some top) (c + top.cost) (h + (c + top.cost))) := by
  simp [AStar.create_new_node]

theorem process_paths_finished_iff (g : PathGenerator) (target : Target)
    (closed_nodes : List Node) (top : Node) (paths : List Pos) :
    AStar.process_paths g target closed_nodes top paths = .Finished ↔
      (AStar.target_is_reached target top.position = true ∧
        ∃ p ∈ paths, AStar.pull_from_closed_by_position closed_nodes p = none) := by
  induction paths with
  | nil => simp [AStar.process_paths]
  | cons p rest ih =>
    simp only [AStar.process_paths]
    by_cases hc : (AStar.pull_from_closed_by_position closed_nodes p).isSome
    · rw [if_pos hc, ih]
      constructor
      · rintro ⟨ht, q, hq, hqn⟩
        exact ⟨ht, q, List.mem_cons_of_mem _ hq, hqn⟩
      · rintro ⟨ht, q, hq, hqn⟩
        rcases List.mem_cons.mp hq with rfl | hq
        · rw [hqn] at hc; simp at hc
        · exact ⟨ht, q, hq, hqn⟩
    · rw [if_neg hc, create_new_node_eq]
      by_cases ht : AStar.target_is_reached target top.position = true
      · simp only [if_pos ht]
        simp only [iff_true_intro ht, true_and]
        constructor
        · intro _
          exact ⟨p, List.mem_cons_self _ _, Option.not_isSome_iff_eq_none.mp hc⟩
        · intro _; trivial
      · simp only [if_neg ht]
        cases hrec : AStar.process_paths g target closed_nodes top rest with
        | Finished =>
          rcases ih.mp hrec with ⟨ht2, _⟩
          exact absurd ht2 ht
        | Ok vs =>
          simp only []
          constructor
          · intro hcontra; cases hcontra
          · rintro ⟨ht2, _⟩; exact absurd ht2 ht

theorem process_paths_ok_mem (g : PathGenerator) (target : Target)
    (closed_nodes : List Node) (top : Node) :
    ∀ (paths : List Pos) (vs : List Node),
      AStar.process_paths g target closed_nodes top paths = .Ok vs →
      ∀ n ∈ vs, ∃ q, q ∈ paths ∧
        AStar.pull_from_closed_by_position closed_nodes q = none ∧
        n = Node.mk q (some top) (g.calculate_cost top.position q + top.cost)
          (g.calculate_heuristic_cost q target + (g.calculate_cost top.position q + top.cost)) := by
  intro paths
  induction paths with
  | nil =>
    intro vs hvs n hn
    simp [AStar.process_paths] at hvs
    subst hvs
    cases hn
  | cons p rest ih =>
    intro vs hvs n hn
    simp only [AStar.process_paths] at hvs
    by_cases hc : (AStar.pull_from_closed_by_position closed_nodes p).isSome
    · rw [if_pos hc] at hvs
      rcases ih vs hvs n hn with ⟨q, hq, hqn, hform⟩
      exact ⟨q, List.mem_cons_of_mem _ hq, hqn, hform⟩
    · rw [if_neg hc, create_new_node_eq] at hvs
      by_cases ht : AStar.target_is_reached target top.position = true
      · rw [if_pos ht] at hvs; cases hvs
      · rw [if_neg ht] at hvs
        cases hrec : AStar.process_paths g target closed_nodes top rest with
        | Finished => rw [hrec] at hvs; cases hvs
        | Ok vs2 =>
          rw [hrec] at hvs
          cases hvs
          rcases List.mem_cons.mp hn with rfl | hn2
          · exact ⟨p, List.mem_cons_self _ _,
              Option.not_isSome_iff_eq_none.mp hc, rfl⟩
          · rcases ih vs2 hrec n hn2 with ⟨q, hq, hqn, hform⟩
            exact ⟨q, List.mem_cons_of_mem _ hq, hqn, hform⟩

theorem process_paths_ok_sublist (g : PathGenerator) (target : Target)
    (closed_nodes : List Node) (top : Node) :
    ∀ (paths : List Pos) (vs : List Node),
      AStar.process_paths g target closed_nodes top paths = .Ok vs →
      List.Sublist (vs.map Node.position) paths := by
  intro paths
  induction paths with
  | nil =>
    intro vs hvs
    simp [AStar.process_paths] at hvs
    subst hvs
    simp
  | cons p rest ih =>
    intro vs hvs
    simp only [AStar.process_paths] at hvs
    by_cases hc : (AStar.pull_from_closed_by_position closed_nodes p).isSome
    · rw [if_pos hc] at hvs
      exact (ih vs hvs).cons p
    · rw [if_neg hc, create_new_node_eq] at hvs
      by_cases ht : AStar.target_is_reached target top.position = true
      · rw [if_pos ht] at hvs; cases hvs
      · rw [if_neg ht] at hvs
        cases hrec : AStar.process_paths g target closed_nodes top rest with
        | Finished => rw [hrec] at hvs; cases hvs
        | Ok vs2 =>
          rw [hrec] at hvs
          cases hvs
          simpa [Node.position] using (ih vs2 hrec).cons₂ p

/-- Unfolding of `step` once the sorted frontier is known. -/
theorem step_eq_of_sort (g : PathGenerator) (target : Target)
    (que closed_nodes : List Node) (top : Node) (rest : List Node)
    (hs : sortNodes que = top :: rest) :
    AStar.step g target que closed_nodes =
      match AStar.process_paths g target closed_nodes top
          (g.generate_paths top.position) with
      | .Finished => .Found (AStar.reconstruct_path top)
      | .Ok vs => .Continue (rest ++ vs) (closed_nodes ++ [top]) := by
  unfold AStar.step
  rw [hs]

/-- C9: at each loop iteration on a non-empty frontier, the node selected
and removed for expansion (the head of the stably sorted frontier) has
the smallest `heuristic_cost` — the field holding the total cost, which
is the sole ordering key — among all frontier nodes. -/
theorem C9_min_total_cost_selected (g : PathGenerator) (target : Target)
    (que closed_nodes : List Node) (hne : que ≠ []) :
    ∃ top rest, sortNodes que = top :: rest ∧
      (∀ n ∈ que, top.heuristic_cost ≤ n.heuristic_cost) ∧
      (AStar.step g target que closed_nodes = .Found (AStar.reconstruct_path top) ∨
        ∃ pushed, AStar.step g target que closed_nodes =
          .Continue (rest ++ pushed) (closed_nodes ++ [top])) := by
  cases hs : sortNodes que with
  | nil => exact absurd (sortNodes_eq_nil_iff.mp hs) hne
  | cons top rest =>
    refine ⟨top, rest, rfl, ?_, ?_⟩
    · intro n hn
      have hmem : n ∈ top :: rest := hs ▸ mem_sortNodes.mpr hn
      have hpw := sortNodes_pairwise que
      rw [hs] at hpw
      rcases List.mem_cons.mp hmem with rfl | hmem2
      · exact Nat.le_refl _
      · exact (List.pairwise_cons.mp hpw).1 n hmem2
    · cases hpp : AStar.process_paths g target closed_nodes top
          (g.generate_paths top.position) with
      | Finished =>
        exact Or.inl (by rw [step_eq_of_sort g target que closed_nodes top rest hs, hpp])
      | Ok vs =>
        exact Or.inr ⟨vs, by rw [step_eq_of_sort g target que closed_nodes top rest hs, hpp]⟩

/-- Witness for C9 on a concrete two-node frontier. -/
theorem C9_min_total_cost_selected_witness :
    ∃ top rest,
      sortNodes [Node.new (5, 5) 10, Node.new (1, 1) 3] = top :: rest ∧
      (∀ n ∈ [Node.new (5, 5) 10, Node.new (1, 1) 3],
        top.heuristic_cost ≤ n.heuristic_cost) ∧
      (AStar.step noNeighbors (none, none) [Node.new (5, 5) 10, Node.new (1, 1) 3] [] =
          .Found (AStar.reconstruct_path top) ∨
        ∃ pushed, AStar.step noNeighbors (none, none)
            [Node.new (5, 5) 10, Node.new (1, 1) 3] [] =
          .Continue (rest ++ pushed) ([] ++ [top])) :=
  C9_min_total_cost_selected noNeighbors (none, none)
    [Node.new (5, 5) 10, Node.new (1, 1) 3] [] (by simp)

/-- C7: when the start position itself satisfies the target specification
and `generate_paths start` is non-empty, the run stops during the very
first expansion and returns the singleton path `[start]`: the check in
`create_new_node` looks at the popped start node and fires on its first
non-closed neighbor. -/
theorem C7_start_at_target (g : PathGenerator) (start : Pos) (target : Target)
    (fuel : Nat) (htarget : AStar.target_is_reached target start = true)
    (hne : g.generate_paths start ≠ []) :
    AStar.run g start target (fuel + 1) = some (some [start]) := by
  rcases List.exists_cons_of_ne_nil hne with ⟨p, rest, hgp⟩
  have hpos : (Node.new start (g.calculate_heuristic_cost start target)).position
      = start := rfl
  have hpp : AStar.process_paths g target []
      (Node.new start (g.calculate_heuristic_cost start target))
      (g.generate_paths
        (Node.new start (g.calculate_heuristic_cost start target)).position) =
      .Finished := by
    rw [hpos, hgp]
    simp [AStar.process_paths, AStar.pull_from_closed_by_position,
      create_new_node_eq, hpos, htarget]
  have hstep : AStar.step g target
      [Node.new start (g.calculate_heuristic_cost start target)] [] =
      .Found [start] := by
    rw [step_eq_of_sort g target
      [Node.new start (g.calculate_heuristic_cost start target)] []
      (Node.new start (g.calculate_heuristic_cost start target)) [] rfl, hpp]
    simp [AStar.reconstruct_path, Node.new]
  unfold AStar.run AStar.runLoop
  rw [hstep]

/-- Witness for C7: a column graph whose start satisfies the all-wildcard
target. -/
theorem C7_start_at_target_witness :
    AStar.run lineGen (0, 0) (none, none) 1 = some (some [(0, 0)]) :=
  C7_start_at_target lineGen (0, 0) (none, none) 0 (by rfl) (by simp [lineGen])

/-- C2 as written is false: the code checks the target predicate on the
*popped* node, not on the generated neighbor.  Here the start's neighbor
`(1, 1)` satisfies the exact target, yet the run returns no path,
because `(1, 1)` is a dead end: when it is popped, no neighbor exists to
trigger the check in `create_new_node`. -/
theorem C2_cex :
    ((1, 1) ∈ cexDeadEnd.generate_paths (0, 0)) ∧
    AStar.target_is_reached (some 1, some 1) (1, 1) = true ∧
    AStar.run cexDeadEnd (0, 0) (some 1, some 1) 5 = some none := by
  refine ⟨by decide, by decide, by decide⟩

/-- C2 amended: during expansion of the popped node `top`, the search
terminates successfully exactly when `top` itself satisfies the target
predicate and at least one generated neighbor is not in the closed set,
and the returned path is `top`'s predecessor chain, whose head is
`top`'s own position (no neighbor is prepended). -/
theorem C2_amended (g : PathGenerator) (target : Target)
    (que closed_nodes : List Node) (top : Node) (rest : List Node)
    (hs : sortNodes que = top :: rest) :
    (∀ p, AStar.step g target que closed_nodes = .Found p ↔
      (p = AStar.reconstruct_path top ∧
        AStar.target_is_reached target top.position = true ∧
        ∃ q ∈ g.generate_paths top.position,
          AStar.pull_from_closed_by_position closed_nodes q = none)) ∧
    (AStar.reconstruct_path top).head? = some top.position := by
  refine ⟨?_, reconstruct_path_head top⟩
  intro p
  rw [step_eq_of_sort g target que closed_nodes top rest hs]
  cases hpp : AStar.process_paths g target closed_nodes top
      (g.generate_paths top.position) with
  | Finished =>
    rcases (process_paths_finished_iff g target closed_nodes top
      (g.generate_paths top.position)).mp hpp with ⟨ht, hq⟩
    constructor
    · intro hfound
      cases hfound
      exact ⟨rfl, ht, hq⟩
    · rintro ⟨rfl, _, _⟩
      rfl
  | Ok vs =>
    constructor
    · intro hfound; cases hfound
    · rintro ⟨rfl, ht, hq⟩
      have : AStar.process_paths g target closed_nodes top
          (g.generate_paths top.position) = .Finished :=
        (process_paths_finished_iff g target closed_nodes top
          (g.generate_paths top.position)).mpr ⟨ht, hq⟩
      rw [this] at hpp
      cases hpp

/-- Witness for the amended C2: `(1, 1)` satisfies the target, its
column neighbor `(2, 1)` is unclosed, so the step finishes with the
popped node's own chain. -/
theorem C2_amended_witness :
    (∀ p, AStar.step lineGen (some 1, some 1) [Node.new (1, 1) 0] [] = .Found p ↔
      (p = AStar.reconstruct_path (Node.new (1, 1) 0) ∧
        AStar.target_is_reached (some 1, some 1) (Node.new (1, 1) 0).position = true ∧
        ∃ q ∈ lineGen.generate_paths (Node.new (1, 1) 0).position,
          AStar.pull_from_closed_by_position [] q = none)) ∧
    (AStar.reconstruct_path (Node.new (1, 1) 0)).head? =
      some (Node.new (1, 1) 0).position :=
  C2_amended lineGen (some 1, some 1) [Node.new (1, 1) 0] [] (Node.new (1, 1) 0) [] rfl

/-- C3 as written is false: on the diamond graph, `(1, 1)` enters the
frontier twice before being closed; both entries are eventually popped,
so `(1, 1)` is expanded twice and appears twice in the closed set.  This
is the trajectory of `run cexDiamond (0, 0) (some 9, some 9)`, which
returns no path. -/
theorem C3_cex :
    (AStar.stepN cexDiamond (some 9, some 9) 5
      [Node.new (0, 0)
        (cexDiamond.calculate_heuristic_cost (0, 0) (some 9, some 9))] []).map
      (fun s => (positionsOf s.2).count (1, 1)) = some 2 ∧
    AStar.run cexDiamond (0, 0) (some 9, some 9) 10 = some none := by
  refine ⟨by decide, by decide⟩

/-- When every generated neighbor is filtered by the closed set, the
expansion loop pushes nothing and never finishes. -/
theorem process_paths_all_closed (g : PathGenerator) (target : Target)
    (closed_nodes : List Node) (top : Node) :
    ∀ paths : List Pos,
      (∀ p ∈ paths, (AStar.pull_from_closed_by_position closed_nodes p).isSome) →
      AStar.process_paths g target closed_nodes top paths = .Ok [] := by
  intro paths
  induction paths with
  | nil => intro _; rfl
  | cons p rest ih =>
    intro h
    simp only [AStar.process_paths]
    rw [if_pos (h p (List.mem_cons_self _ _))]
    exact ih (fun q hq => h q (List.mem_cons_of_mem _ hq))

/-- C3 amended: each continuing iteration closes exactly the popped
node, and every node pushed onto the frontier has a position that is not
in the closed set at push time; re-closing is possible only because
duplicate frontier entries for one position may each be popped. -/
theorem C3_amended (g : PathGenerator) (target : Target)
    (que closed_nodes : List Node) (top : Node) (rest vs : List Node)
    (hs : sortNodes que = top :: rest)
    (hpp : AStar.process_paths g target closed_nodes top
      (g.generate_paths top.position) = .Ok vs) :
    AStar.step g target que closed_nodes = .Continue (rest ++ vs) (closed_nodes ++ [top]) ∧
    ∀ n ∈ vs, AStar.pull_from_closed_by_position closed_nodes n.position = none := by
  constructor
  · rw [step_eq_of_sort g target que closed_nodes top rest hs, hpp]
  · intro n hn
    rcases process_paths_ok_mem g target closed_nodes top
      (g.generate_paths top.position) vs hpp n hn with ⟨q, _, hq, hform⟩
    rw [hform]
    exact hq

/-- Witness for the amended C3 on the first expansion of the diamond. -/
theorem C3_amended_witness :
    AStar.step cexDiamond (some 9, some 9) [Node.new (0, 0) 0] [] =
      .Continue ([] ++
        [Node.mk (0, 1) (some (Node.new (0, 0) 0)) 1 1,
         Node.mk (1, 0) (some (Node.new (0, 0) 0)) 1 1]) ([] ++ [Node.new (0, 0) 0]) ∧
    ∀ n ∈ [Node.mk (0, 1) (some (Node.new (0, 0) 0)) 1 1,
           Node.mk (1, 0) (some (Node.new (0, 0) 0)) 1 1],
      AStar.pull_from_closed_by_position [] n.position = none :=
  C3_amended cexDiamond (some 9, some 9) [Node.new (0, 0) 0] [] (Node.new (0, 0) 0)
    [] [Node.mk (0, 1) (some (Node.new (0, 0) 0)) 1 1,
        Node.mk (1, 0) (some (Node.new (0, 0) 0)) 1 1] rfl rfl

/-- C10: a popped node that satisfies the target specification but has
no unclosed generated neighbor does not end the search: the node is
closed and the loop continues; concretely, the dead-end graph pops the
satisfying position `(1, 1)` (it is the second closed position of the
run's own trajectory) and still returns no path. -/
theorem C10_dead_end_target (g : PathGenerator) (target : Target)
    (que closed_nodes : List Node) (top : Node) (rest : List Node)
    (hs : sortNodes que = top :: rest)
    (hall : ∀ q ∈ g.generate_paths top.position,
      (AStar.pull_from_closed_by_position closed_nodes q).isSome) :
    (AStar.step g target que closed_nodes =
      .Continue (rest ++ []) (closed_nodes ++ [top])) ∧
    (AStar.run cexDeadEnd2 (0, 0) (some 1, some 1) 5 = some none ∧
      AStar.target_is_reached (some 1, some 1) (1, 1) = true ∧
      (AStar.stepN cexDeadEnd2 (some 1, some 1) 2
        [Node.new (0, 0)
          (cexDeadEnd2.calculate_heuristic_cost (0, 0) (some 1, some 1))] []).map
        (fun s => positionsOf s.2) = some [(0, 0), (1, 1)]) := by
  constructor
  · rw [step_eq_of_sort g target que closed_nodes top rest hs,
      process_paths_all_closed g target closed_nodes top _ hall]
  · exact ⟨by decide, by decide, by decide⟩

/-- Witness for C10: the second trajectory step of the dead-end run pops
the satisfying node `(1, 1)` whose neighbor list is empty. -/
theorem C10_dead_end_target_witness :
    (AStar.step cexDeadEnd2 (some 1, some 1)
      [Node.mk (1, 1) (some (Node.new (0, 0) 0)) 1 1] [Node.new (0, 0) 0] =
      .Continue ([] ++ [])
        ([Node.new (0, 0) 0] ++ [Node.mk (1, 1) (some (Node.new (0, 0) 0)) 1 1])) ∧
    (AStar.run cexDeadEnd2 (0, 0) (some 1, some 1) 5 = some none ∧
      AStar.target_is_reached (some 1, some 1) (1, 1) = true ∧
      (AStar.stepN cexDeadEnd2 (some 1, some 1) 2
        [Node.new (0, 0)
          (cexDeadEnd2.calculate_heuristic_cost (0, 0) (some 1, some 1))] []).map
        (fun s => positionsOf s.2) = some [(0, 0), (1, 1)]) :=
  C10_dead_end_target cexDeadEnd2 (some 1, some 1)
    [Node.mk (1, 1) (some (Node.new (0, 0) 0)) 1 1] [Node.new (0, 0) 0]
    (Node.mk (1, 1) (some (Node.new (0, 0) 0)) 1 1) [] rfl (by decide)

/-- Unfolding of `step` on an empty frontier. -/
theorem step_eq_nopath (g : PathGenerator) (target : Target)
    (que closed_nodes : List Node) (hs : sortNodes que = []) :
    AStar.step g target que closed_nodes = .NoPath := by
  unfold AStar.step
  rw [hs]

/-- A child node created from a well-formed parent is well formed. -/
theorem nodeOK_child (g : PathGenerator) (start : Pos) (top : Node) (q : Pos)
    (c h : Nat) (hok : NodeOK g start top) (hq : q ∈ g.generate_paths top.position) :
    NodeOK g start (Node.mk q (some top) c h) := by
  rcases hok with ⟨hchain, hlast⟩
  have hrpdef : AStar.reconstruct_path (Node.mk q (some top) c h) =
      q :: AStar.reconstruct_path top := rfl
  cases hrp : AStar.reconstruct_path top with
  | nil => exact absurd hrp (reconstruct_path_ne_nil top)
  | cons x rest =>
    have hx : x = top.position := by
      have hh := reconstruct_path_head top
      rw [hrp] at hh
      simpa using hh
    subst hx
    constructor
    · rw [hrpdef, hrp]
      show ((g.generate_paths top.position).contains q &&
        isChainRev g (top.position :: rest)) = true
      rw [hrp] at hchain
      simp [hchain, hq]
    · rw [hrpdef, hrp, List.getLast?_cons_cons]
      rw [hrp] at hlast
      exact hlast

/-- Whatever a finishing step returns is the reconstructed path of a
frontier node whose position satisfies the target specification. -/
theorem step_found_inv (g : PathGenerator) (target : Target)
    (que closed_nodes : List Node) (p : List Pos)
    (hstep : AStar.step g target que closed_nodes = .Found p) :
    ∃ top, top ∈ que ∧ p = AStar.reconstruct_path top ∧
      AStar.target_is_reached target top.position = true := by
  cases hs : sortNodes que with
  | nil => rw [step_eq_nopath g target que closed_nodes hs] at hstep; cases hstep
  | cons top rest =>
    rw [step_eq_of_sort g target que closed_nodes top rest hs] at hstep
    cases hpp : AStar.process_paths g target closed_nodes top
        (g.generate_paths top.position) with
    | Ok vs => rw [hpp] at hstep; cases hstep
    | Finished =>
      rw [hpp] at hstep
      cases hstep
      refine ⟨top, ?_, rfl, ?_⟩
      · exact mem_sortNodes.mp (hs ▸ List.mem_cons_self top rest)
      · exact ((process_paths_finished_iff g target closed_nodes top
          (g.generate_paths top.position)).mp hpp).1

/-- A continuing step preserves well-formedness of the frontier. -/
theorem step_continue_inv (g : PathGenerator) (start : Pos) (target : Target)
    (que closed_nodes que2 closed2 : List Node)
    (hinv : ∀ n ∈ que, NodeOK g start n)
    (hstep : AStar.step g target que closed_nodes = .Continue que2 closed2) :
    ∀ n ∈ que2, NodeOK g start n := by
  cases hs : sortNodes que with
  | nil => rw [step_eq_nopath g target que closed_nodes hs] at hstep; cases hstep
  | cons top rest =>
    rw [step_eq_of_sort g target que closed_nodes top rest hs] at hstep
    cases hpp : AStar.process_paths g target closed_nodes top
        (g.generate_paths top.position) with
    | Finished => rw [hpp] at hstep; cases hstep
    | Ok vs =>
      rw [hpp] at hstep
      cases hstep
      intro n hn
      rcases List.mem_append.mp hn with hn | hn
      · exact hinv n (mem_sortNodes.mp (hs ▸ List.mem_cons_of_mem top hn))
      · rcases process_paths_ok_mem g target closed_nodes top
          (g.generate_paths top.position) vs hpp n hn with ⟨q, hqmem, _, hform⟩
        have htop : NodeOK g start top :=
          hinv top (mem_sortNodes.mp (hs ▸ List.mem_cons_self top rest))
        rw [hform]
        exact nodeOK_child g start top q _ _ htop hqmem

/-- Any path returned by the loop from a well-formed frontier is a
back-to-front chain from a target-satisfying head down to `start`. -/
theorem runLoop_found (g : PathGenerator) (start : Pos) (target : Target) :
    ∀ (fuel : Nat) (que closed_nodes : List Node) (p : List Pos),
      (∀ n ∈ que, NodeOK g start n) →
      AStar.runLoop g target fuel que closed_nodes = some (some p) →
      isChainRev g p = true ∧ p.getLast? = some start ∧
        ∃ e rest, p = e :: rest ∧ AStar.target_is_reached target e = true := by
  intro fuel
  induction fuel with
  | zero => intro que closed_nodes p _ h; cases h
  | succ fuel ih =>
    intro que closed_nodes p hinv hrun
    unfold AStar.runLoop at hrun
    cases hs2 : AStar.step g target que closed_nodes with
    | NoPath => rw [hs2] at hrun; cases hrun
    | Found path =>
      rw [hs2] at hrun
      cases hrun
      rcases step_found_inv g target que closed_nodes p hs2 with
        ⟨top, htopmem, rfl, htarget⟩
      rcases hinv top htopmem with ⟨hchain, hlast⟩
      refine ⟨hchain, hlast, top.position, ?_⟩
      cases hrp : AStar.reconstruct_path top with
      | nil => exact absurd hrp (reconstruct_path_ne_nil top)
      | cons x rest =>
        have hx : x = top.position := by
          have hh := reconstruct_path_head top
          rw [hrp] at hh
          simpa using hh
        subst hx
        exact ⟨rest, rfl, htarget⟩
    | Continue que2 closed2 =>
      rw [hs2] at hrun
      exact ih que2 closed2 p
        (step_continue_inv g start target que closed_nodes que2 closed2 hinv hs2) hrun

/-- The synthetic start node is well formed. -/
theorem nodeOK_start (g : PathGenerator) (start : Pos) (h : Nat) :
    NodeOK g start (Node.new start h) := by
  constructor
  · rfl
  · rfl

theorem isChain_append_single (g : PathGenerator) :
    ∀ (l : List Pos) (y x : Pos), l.getLast? = some y →
      isChain g (l ++ [x]) = (isChain g l && (g.generate_paths y).contains x) := by
  intro l
  induction l with
  | nil => intro y x h; cases h
  | cons a rest ih =>
    intro y x h
    cases rest with
    | nil =>
      have hy : a = y := by simpa using h
      subst hy
      simp [isChain]
    | cons b rest2 =>
      have h2 : (b :: rest2).getLast? = some y := by
        rw [← h]; exact List.getLast?_cons_cons.symm
      have := ih y x h2
      show ((g.generate_paths a).contains b && isChain g ((b :: rest2) ++ [x]))
          = ((g.generate_paths a).contains b && isChain g (b :: rest2)
            && (g.generate_paths y).contains x)
      rw [this, Bool.and_assoc]

theorem pathCost_append_single (g : PathGenerator) :
    ∀ (l : List Pos) (y x : Pos), l.getLast? = some y →
      pathCost g (l ++ [x]) = pathCost g l + g.calculate_cost y x := by
  intro l
  induction l with
  | nil => intro y x h; cases h
  | cons a rest ih =>
    intro y x h
    cases rest with
    | nil =>
      have hy : a = y := by simpa using h
      subst hy
      simp [pathCost]
    | cons b rest2 =>
      have h2 : (b :: rest2).getLast? = some y := by
        rw [← h]; exact List.getLast?_cons_cons.symm
      have := ih y x h2
      show g.calculate_cost a b + pathCost g ((b :: rest2) ++ [x])
          = g.calculate_cost a b + pathCost g (b :: rest2) + g.calculate_cost y x
      rw [this, Nat.add_assoc]

theorem isChain_reverse (g : PathGenerator) :
    ∀ l : List Pos, isChain g l.reverse = isChainRev g l := by
  intro l
  induction l with
  | nil => rfl
  | cons x rest ih =>
    cases rest with
    | nil => rfl
    | cons y rest2 =>
      have h1 : (x :: y :: rest2).reverse = (y :: rest2).reverse ++ [x] := by
        simp
      have hy : ((y :: rest2).reverse).getLast? = some y := by
        rw [List.getLast?_reverse]; rfl
      rw [h1, isChain_append_single g _ y x hy, ih]
      show (isChainRev g (y :: rest2) && (g.generate_paths y).contains x)
          = ((g.generate_paths y).contains x && isChainRev g (y :: rest2))
      rw [Bool.and_comm]

theorem pathCost_reverse (g : PathGenerator) :
    ∀ l : List Pos, pathCost g l.reverse = pathCostRev g l := by
  intro l
  induction l with
  | nil => rfl
  | cons x rest ih =>
    cases rest with
    | nil => rfl
    | cons y rest2 =>
      have h1 : (x :: y :: rest2).reverse = (y :: rest2).reverse ++ [x] := by
        simp
      have hy : ((y :: rest2).reverse).getLast? = some y := by
        rw [List.getLast?_reverse]; rfl
      rw [h1, pathCost_append_single g _ y x hy, ih]
      show pathCostRev g (y :: rest2) + g.calculate_cost y x
          = g.calculate_cost y x + pathCostRev g (y :: rest2)
      rw [Nat.add_comm]

theorem stepsOf_add_one :
    ∀ l : List Pos, l ≠ [] → stepsOf l + 1 = l.length := by
  intro l
  induction l with
  | nil => intro h; cases h rfl
  | cons x rest ih =>
    intro _
    cases rest with
    | nil => rfl
    | cons y rest2 =>
      show stepsOf (y :: rest2) + 1 + 1 = (y :: rest2).length + 1
      rw [ih (by simp)]

/-- C6: every sequence returned by `run`, read from its last element to
its first, is a chain of the generator (each consecutive pair a neighbor
pair per `generate_paths`), its last element is `start`, and its length
is the number of steps plus one. -/
theorem C6_reconstruction_validity (g : PathGenerator) (start : Pos)
    (target : Target) (fuel : Nat) (p : List Pos)
    (h : AStar.run g start target fuel = some (some p)) :
    isChainRev g p = true ∧ p.getLast? = some start ∧
      stepsOf p + 1 = p.length := by
  have hinv : ∀ n ∈ [Node.new start (g.calculate_heuristic_cost start target)],
      NodeOK g start n := by
    intro n hn
    rw [List.mem_singleton.mp hn]
    exact nodeOK_start g start _
  rcases runLoop_found g start target fuel _ _ p hinv h with
    ⟨hchain, hlast, e, rest, rfl, _⟩
  exact ⟨hchain, hlast, stepsOf_add_one _ (by simp)⟩

/-- Witness for C6 on a concrete three-element returned path. -/
theorem C6_reconstruction_validity_witness :
    isChainRev lineGen [(2, 0), (1, 0), (0, 0)] = true ∧
    ([(2, 0), (1, 0), (0, 0)] : List Pos).getLast? = some (0, 0) ∧
      stepsOf [(2, 0), (1, 0), (0, 0)] + 1 =
        ([(2, 0), (1, 0), (0, 0)] : List Pos).length :=
  C6_reconstruction_validity lineGen (0, 0) (some 2, none) 5
    [(2, 0), (1, 0), (0, 0)] (by decide)

/-- C8: a returned path for target `(some 3, none)` ends (at its head,
the terminal position) in row 3 whatever the column; and in general
`target_is_reached` holds exactly when every present axis constraint
equals the corresponding coordinate, absent constraints always passing. -/
theorem C8_wildcard_target :
    (∀ (g : PathGenerator) (start : Pos) (fuel : Nat) (p : List Pos),
      AStar.run g start (some 3, none) fuel = some (some p) →
      ∃ e rest, p = e :: rest ∧ e.fst = 3) ∧
    (∀ (target : Target) (pos : Pos),
      AStar.target_is_reached target pos = true ↔
        ((∀ r, target.fst = some r → r = pos.fst) ∧
         (∀ c, target.snd = some c → c = pos.snd))) := by
  have hchar : ∀ (target : Target) (pos : Pos),
      AStar.target_is_reached target pos = true ↔
        ((∀ r, target.fst = some r → r = pos.fst) ∧
         (∀ c, target.snd = some c → c = pos.snd)) := by
    rintro ⟨tr, tc⟩ ⟨pr, pc⟩
    cases tr <;> cases tc <;> simp [AStar.target_is_reached]
  refine ⟨?_, hchar⟩
  intro g start fuel p h
  have hinv : ∀ n ∈ [Node.new start (g.calculate_heuristic_cost start (some 3, none))],
      NodeOK g start n := by
    intro n hn
    rw [List.mem_singleton.mp hn]
    exact nodeOK_start g start _
  rcases runLoop_found g start (some 3, none) fuel _ _ p hinv h with
    ⟨_, _, e, rest, rfl, htarget⟩
  refine ⟨e, rest, rfl, ?_⟩
  exact (((hchar (some 3, none) e).mp htarget).1 3 rfl).symm

/-- Witness for C8: a concrete run on the column graph with target
`(some 3, none)` and the predicate characterization at `(3, 5)`. -/
theorem C8_wildcard_target_witness :
    (∃ e rest, ([(3, 0), (2, 0), (1, 0), (0, 0)] : List Pos) = e :: rest ∧
      e.fst = 3) ∧
    (AStar.target_is_reached (some 3, none) (3, 5) = true ↔
      ((∀ r, (some 3 : Option Nat) = some r → r = 3) ∧
       (∀ c, (none : Option Nat) = some c → c = 5))) :=
  ⟨C8_wildcard_target.1 lineGen (0, 0) 6 [(3, 0), (2, 0), (1, 0), (0, 0)] (by decide),
   C8_wildcard_target.2 (some 3, none) (3, 5)⟩

/-- C1 amended: a returned path, reversed into start-to-target order, is
itself a generator chain from `start` satisfying the target, so its
accumulated cost is bounded below by every lower bound of the achievable
satisfying-path costs (in particular by the minimum);  equality with the
minimum, however, can fail for an admissible heuristic (see the
counterexample). -/
theorem C1_amended_soundness (g : PathGenerator) (start : Pos) (target : Target)
    (fuel : Nat) (p : List Pos)
    (h : AStar.run g start target fuel = some (some p)) :
    satisfyingChainFrom g target start p.reverse ∧
    ∀ m, (∀ l, satisfyingChainFrom g target start l → m ≤ pathCost g l) →
      m ≤ pathCostRev g p := by
  have hinv : ∀ n ∈ [Node.new start (g.calculate_heuristic_cost start target)],
      NodeOK g start n := by
    intro n hn
    rw [List.mem_singleton.mp hn]
    exact nodeOK_start g start _
  rcases runLoop_found g start target fuel _ _ p hinv h with
    ⟨hchain, hlast, e, rest, hpe, htarget⟩
  have hsat : satisfyingChainFrom g target start p.reverse := by
    refine ⟨?_, ?_, e, ?_, htarget⟩
    · rw [isChain_reverse]; exact hchain
    · rw [List.head?_reverse]; exact hlast
    · rw [List.getLast?_reverse, hpe]; rfl
  refine ⟨hsat, ?_⟩
  intro m hm
  have := hm p.reverse hsat
  rwa [pathCost_reverse] at this

/-- Witness for the amended C1 on the concrete four-state graph. -/
theorem C1_amended_soundness_witness :
    satisfyingChainFrom cexAdm (some 2, some 2) (0, 0)
      ([(2, 2), (0, 1), (0, 0)] : List Pos).reverse ∧
    ∀ m, (∀ l, satisfyingChainFrom cexAdm (some 2, some 2) (0, 0) l →
        m ≤ pathCost cexAdm l) →
      m ≤ pathCostRev cexAdm [(2, 2), (0, 1), (0, 0)] :=
  C1_amended_soundness cexAdm (0, 0) (some 2, some 2) 10
    [(2, 2), (0, 1), (0, 0)] (by decide)

/-- The heuristic of `cexAdm` is admissible for the target `(2, 2)`:
it is 0 everywhere except at `(1, 0)`, and every satisfying chain from
`(1, 0)` must pass through `(0, 1)` and then `(2, 2)`, costing at
least 11 ≥ 5. -/
theorem cexAdm_admissible : Admissible cexAdm (some 2, some 2) := by
  intro p l hl
  by_cases hp : p = (1, 0)
  · subst hp
    rcases hl with ⟨hchain, hhead, e, hlast, htarget⟩
    cases l with
    | nil => cases hhead
    | cons a l1 =>
      have ha : a = (1, 0) := by simpa using hhead
      subst ha
      cases l1 with
      | nil =>
        have he : e = (1, 0) := by simpa using hlast.symm
        subst he
        exact absurd htarget (by decide)
      | cons b l2 =>
        have hb : b = (0, 1) := by
          have h1 : (cexAdm.generate_paths (1, 0)).contains b = true := by
            have := hchain
            simp only [isChain, Bool.and_eq_true] at this
            exact this.1
          simpa [cexAdm] using h1
        subst hb
        have hcost1 : pathCost cexAdm ((1, 0) :: (0, 1) :: l2) =
            1 + pathCost cexAdm ((0, 1) :: l2) := by
          show cexAdm.calculate_cost (1, 0) (0, 1) + _ = _
          norm_num [cexAdm]
        rw [hcost1]
        have h4 : 4 ≤ pathCost cexAdm ((0, 1) :: l2) := by
          cases l2 with
          | nil =>
            have he : e = (0, 1) := by simpa using hlast.symm
            subst he
            exact absurd htarget (by decide)
          | cons r l3 =>
            have hr : r = (2, 2) := by
              have h1 : (cexAdm.generate_paths (0, 1)).contains r = true := by
                have := hchain
                simp only [isChain, Bool.and_eq_true] at this
                exact this.2.1
              simpa [cexAdm] using h1
            subst hr
            have hcost2 : pathCost cexAdm ((0, 1) :: (2, 2) :: l3) =
                10 + pathCost cexAdm ((2, 2) :: l3) := by
              show cexAdm.calculate_cost (0, 1) (2, 2) + _ = _
              norm_num [cexAdm]
            rw [hcost2]
            omega
        have hh : cexAdm.calculate_heuristic_cost (1, 0) (some 2, some 2) = 5 := by
          norm_num [cexAdm]
        rw [hh]
        omega
  · have hh : cexAdm.calculate_heuristic_cost p (some 2, some 2) = 0 := by
      simp [cexAdm, hp]
    rw [hh]
    exact Nat.zero_le _

/-- C1 as written is false: with the admissible heuristic of `cexAdm`
and non-negative costs, the run returns the path
`[(2,2), (0,1), (0,0)]` of accumulated cost 15, while the satisfying
chain `[(0,0), (1,0), (0,1), (2,2)]` costs only 12.  The heuristic is
admissible but not consistent, and this implementation never re-opens a
closed position, so the cheap route to `(0, 1)` found later is
discarded. -/
theorem C1_cex :
    Admissible cexAdm (some 2, some 2) ∧
    AStar.run cexAdm (0, 0) (some 2, some 2) 10 =
      some (some [(2, 2), (0, 1), (0, 0)]) ∧
    satisfyingChainFrom cexAdm (some 2, some 2) (0, 0)
      [(0, 0), (1, 0), (0, 1), (2, 2)] ∧
    pathCost cexAdm [(0, 0), (1, 0), (0, 1), (2, 2)] = 12 ∧
    pathCostRev cexAdm [(2, 2), (0, 1), (0, 0)] = 15 ∧
    ¬ pathCostRev cexAdm [(2, 2), (0, 1), (0, 0)] ≤
        pathCost cexAdm [(0, 0), (1, 0), (0, 1), (2, 2)] := by
  refine ⟨cexAdm_admissible, by decide, ⟨by decide, by decide, (2, 2), by decide, by decide⟩,
    by decide, by decide, by decide⟩

/-! ## Termination of the search on a finite reachable set (C4) -/

theorem bigW_pos (g : PathGenerator) (k : Nat) (p : Pos) : 1 ≤ bigW g k p := by
  cases k with
  | zero => exact Nat.le_refl 1
  | succ k => exact Nat.le_add_right 1 _

theorem sublist_sum_le : ∀ {l₁ l₂ : List Nat}, List.Sublist l₁ l₂ → l₁.sum ≤ l₂.sum := by
  intro l₁ l₂ h
  induction h with
  | slnil => exact Nat.le_refl 0
  | cons a h ih => simpa using Nat.le_trans ih (Nat.le_add_left _ a)
  | cons₂ a h ih => simpa using Nat.add_le_add_left ih a

theorem everyOther_subset : ∀ (l : List Pos) (x : Pos), x ∈ everyOther l → x ∈ l
  | [], x, h => by cases h
  | [y], x, h => by simpa [everyOther] using h
  | y :: z :: rest, x, h => by
    simp only [everyOther, List.mem_cons] at h
    rcases h with rfl | h
    · exact List.mem_cons_self _ _
    · exact List.mem_cons_of_mem _ (List.mem_cons_of_mem _ (everyOther_subset rest x h))

theorem noFarDup_nodup_everyOther : ∀ l : List Pos, noFarDup l → (everyOther l).Nodup
  | [], _ => by simp [everyOther]
  | [x], _ => by simp [everyOther]
  | x :: y :: rest, h => by
    simp only [noFarDup, List.tail_cons] at h
    rcases h with ⟨hx, _, hrest⟩
    simp only [everyOther, List.nodup_cons]
    refine ⟨?_, noFarDup_nodup_everyOther rest hrest⟩
    intro hmem
    exact hx (everyOther_subset rest x hmem)

theorem length_everyOther : ∀ l : List Pos,
    l.length = (everyOther l).length + (everyOther l.tail).length
  | [] => rfl
  | [_] => rfl
  | x :: y :: rest => by
    have ih := length_everyOther (y :: rest)
    simp only [everyOther, List.length_cons, List.tail_cons] at ih ⊢
    omega

theorem noFarDup_tail : ∀ l : List Pos, noFarDup l → noFarDup l.tail
  | [], h => h
  | _ :: _, h => h.2

theorem nodup_length_le_card (l R : List Pos) (hnd : l.Nodup)
    (hsub : ∀ x ∈ l, x ∈ R) : l.length ≤ R.toFinset.card := by
  rw [← List.toFinset_card_of_nodup hnd]
  apply Finset.card_le_card
  intro x hx
  rw [List.mem_toFinset] at hx ⊢
  exact hsub x hx

/-- A list with no far duplicates over the positions of `R` has at most
`2 * R.toFinset.card` elements: its even-indexed and odd-indexed
sublists are each duplicate-free. -/
theorem noFarDup_length_le (l R : List Pos) (hnfd : noFarDup l)
    (hsub : ∀ x ∈ l, x ∈ R) : l.length ≤ 2 * R.toFinset.card := by
  have h1 := length_everyOther l
  have h2 : (everyOther l).length ≤ R.toFinset.card :=
    nodup_length_le_card _ R (noFarDup_nodup_everyOther l hnfd)
      (fun x hx => hsub x (everyOther_subset l x hx))
  have h3 : (everyOther l.tail).length ≤ R.toFinset.card :=
    nodup_length_le_card _ R (noFarDup_nodup_everyOther l.tail (noFarDup_tail l hnfd))
      (fun x hx => hsub x (List.mem_of_mem_tail (everyOther_subset l.tail x hx)))
  omega

theorem pull_eq_none_iff (closed_nodes : List Node) (q : Pos) :
    AStar.pull_from_closed_by_position closed_nodes q = none ↔
      q ∉ positionsOf closed_nodes := by
  induction closed_nodes with
  | nil => simp [AStar.pull_from_closed_by_position, positionsOf]
  | cons n rest ih =>
    by_cases h : n.position = q
    · simp [AStar.pull_from_closed_by_position, positionsOf, h]
    · simp only [AStar.pull_from_closed_by_position, if_neg h, ih, positionsOf,
        List.map_cons, List.mem_cons]
      constructor
      · intro hnot hor
        rcases hor with he | hmem
        · exact h he.symm
        · exact hnot hmem
      · intro hnot hmem
        exact hnot (Or.inr hmem)

theorem queMeasure_sort (g : PathGenerator) (R : List Pos) (que : List Node) :
    queMeasure g R (sortNodes que) = queMeasure g R que :=
  List.Perm.sum_eq ((sortNodes_perm que).map _)

/-- Expanding the popped node strictly decreases the frontier measure:
the popped node's contribution covers one iteration plus the
contributions of all its pushed children, whose chains are one longer. -/
theorem queMeasure_decrease (g : PathGenerator) (target : Target) (R : List Pos)
    (que closed_nodes : List Node) (top : Node) (rest vs : List Node)
    (hs : sortNodes que = top :: rest)
    (hpp : AStar.process_paths g target closed_nodes top
      (g.generate_paths top.position) = .Ok vs)
    (hlen : (AStar.reconstruct_path top).length ≤ 2 * R.toFinset.card) :
    queMeasure g R (rest ++ vs) + 1 ≤ queMeasure g R que := by
  have hL1 : 1 ≤ (AStar.reconstruct_path top).length :=
    List.length_pos.mpr (reconstruct_path_ne_nil top)
  have hksucc : 2 * R.toFinset.card + 1 - (AStar.reconstruct_path top).length =
      (2 * R.toFinset.card - (AStar.reconstruct_path top).length) + 1 := by omega
  have htopmeas : nodeMeasure g R top =
      1 + ((g.generate_paths top.position).map
        (bigW g (2 * R.toFinset.card - (AStar.reconstruct_path top).length))).sum := by
    rw [nodeMeasure, hksucc]
    rfl
  have hchild : ∀ n ∈ vs, nodeMeasure g R n =
      bigW g (2 * R.toFinset.card - (AStar.reconstruct_path top).length) n.position := by
    intro n hn
    rcases process_paths_ok_mem g target closed_nodes top
      (g.generate_paths top.position) vs hpp n hn with ⟨q, _, _, hform⟩
    subst hform
    have hlen2 : (AStar.reconstruct_path (Node.mk q (some top)
        (g.calculate_cost top.position q + top.cost)
        (g.calculate_heuristic_cost q target +
          (g.calculate_cost top.position q + top.cost)))).length =
        (AStar.reconstruct_path top).length + 1 := by
      show (q :: AStar.reconstruct_path top).length = _
      simp
    rw [nodeMeasure, hlen2]
    have : 2 * R.toFinset.card + 1 - ((AStar.reconstruct_path top).length + 1) =
        2 * R.toFinset.card - (AStar.reconstruct_path top).length := by omega
    rw [this]
  have hmapeq : vs.map (nodeMeasure g R) = (vs.map Node.position).map
      (bigW g (2 * R.toFinset.card - (AStar.reconstruct_path top).length)) := by
    rw [List.map_map]
    exact List.map_eq_map_iff.mpr hchild
  have hsum : (vs.map (nodeMeasure g R)).sum ≤
      ((g.generate_paths top.position).map
        (bigW g (2 * R.toFinset.card - (AStar.reconstruct_path top).length))).sum := by
    rw [hmapeq]
    exact sublist_sum_le ((process_paths_ok_sublist g target closed_nodes top
      (g.generate_paths top.position) vs hpp).map _)
  have hqueq : queMeasure g R que = nodeMeasure g R top + queMeasure g R rest := by
    rw [← queMeasure_sort g R que, hs]
    simp [queMeasure]
  have happ : queMeasure g R (rest ++ vs) =
      queMeasure g R rest + (vs.map (nodeMeasure g R)).sum := by
    simp [queMeasure]
  omega

theorem reconstruct_path_eq_cons (n : Node) :
    AStar.reconstruct_path n = n.position :: (AStar.reconstruct_path n).tail := by
  cases n with
  | mk p c cost h => cases c <;> rfl

theorem positionsOf_append (l₁ l₂ : List Node) :
    positionsOf (l₁ ++ l₂) = positionsOf l₁ ++ positionsOf l₂ := by
  simp [positionsOf]

/-- A continuing step preserves the termination invariant. -/
theorem invC4_continue (g : PathGenerator) (start : Pos) (target : Target)
    (R : List Pos) (hR : ReachSet g start R)
    (que closed_nodes : List Node) (top : Node) (rest vs : List Node)
    (hs : sortNodes que = top :: rest)
    (hpp : AStar.process_paths g target closed_nodes top
      (g.generate_paths top.position) = .Ok vs)
    (hinv : InvC4 g start R que closed_nodes) :
    InvC4 g start R (rest ++ vs) (closed_nodes ++ [top]) := by
  have htopinv := hinv top (mem_sortNodes.mp (hs ▸ List.mem_cons_self top rest))
  intro n hn
  rcases List.mem_append.mp hn with hn | hn
  · obtain ⟨h1, h2, h3, h4⟩ :=
      hinv n (mem_sortNodes.mp (hs ▸ List.mem_cons_of_mem top hn))
    refine ⟨h1, h2, h3, ?_⟩
    intro x hx
    rw [positionsOf_append]
    exact List.mem_append_left _ (h4 x hx)
  · rcases process_paths_ok_mem g target closed_nodes top
      (g.generate_paths top.position) vs hpp n hn with ⟨q, hq, hqnone, hform⟩
    subst hform
    obtain ⟨hok, hnfd, hsubR, htail⟩ := htopinv
    have hqnotclosed : q ∉ positionsOf closed_nodes :=
      (pull_eq_none_iff closed_nodes q).mp hqnone
    have hrp : AStar.reconstruct_path (Node.mk q (some top)
        (g.calculate_cost top.position q + top.cost)
        (g.calculate_heuristic_cost q target +
          (g.calculate_cost top.position q + top.cost))) =
        q :: AStar.reconstruct_path top := rfl
    refine ⟨nodeOK_child g start top q _ _ hok hq, ?_, ?_, ?_⟩
    · rw [hrp]
      refine ⟨?_, hnfd⟩
      intro hqt
      exact hqnotclosed (htail q hqt)
    · rw [hrp]
      intro x hx
      rcases List.mem_cons.mp hx with rfl | hx
      · have htoppos : top.position ∈ R := by
          apply hsubR
          rw [reconstruct_path_eq_cons top]
          exact List.mem_cons_self _ _
        exact hR.2 top.position htoppos x hq
      · exact hsubR x hx
    · rw [hrp]
      intro x hx
      rw [List.tail_cons] at hx
      rw [positionsOf_append]
      rw [reconstruct_path_eq_cons top] at hx
      rcases List.mem_cons.mp hx with rfl | hx
      · apply List.mem_append_right
        simp [positionsOf]
      · exact List.mem_append_left _ (htail x hx)

/-- From any invariant state with no satisfying chain available, the
loop runs out of frontier within `queMeasure` iterations. -/
theorem runLoop_exhausts (g : PathGenerator) (target : Target) (start : Pos)
    (R : List Pos) (hR : ReachSet g start R)
    (hno : ∀ l, ¬ satisfyingChainFrom g target start l) :
    ∀ (N : Nat) (que closed_nodes : List Node), queMeasure g R que ≤ N →
      InvC4 g start R que closed_nodes →
      ∃ fuel, AStar.runLoop g target fuel que closed_nodes = some none := by
  intro N
  induction N with
  | zero =>
    intro que closed_nodes hmeas hinv
    cases hs : sortNodes que with
    | nil =>
      exact ⟨1, by unfold AStar.runLoop; rw [step_eq_nopath g target que closed_nodes hs]⟩
    | cons top rest =>
      exfalso
      have h1 : 1 ≤ nodeMeasure g R top := bigW_pos g _ top.position
      have h2 : queMeasure g R que =
          nodeMeasure g R top + queMeasure g R rest := by
        rw [← queMeasure_sort g R que, hs]
        simp [queMeasure]
      omega
  | succ N ih =>
    intro que closed_nodes hmeas hinv
    cases hs : sortNodes que with
    | nil =>
      exact ⟨1, by unfold AStar.runLoop; rw [step_eq_nopath g target que closed_nodes hs]⟩
    | cons top rest =>
      have htopmem : top ∈ que := mem_sortNodes.mp (hs ▸ List.mem_cons_self top rest)
      obtain ⟨hok, hnfd, hsubR, htail⟩ := hinv top htopmem
      cases hpp : AStar.process_paths g target closed_nodes top
          (g.generate_paths top.position) with
      | Finished =>
        exfalso
        have htarget := ((process_paths_finished_iff g target closed_nodes top
          (g.generate_paths top.position)).mp hpp).1
        apply hno (AStar.reconstruct_path top).reverse
        refine ⟨?_, ?_, top.position, ?_, htarget⟩
        · rw [isChain_reverse]; exact hok.1
        · rw [List.head?_reverse]; exact hok.2
        · rw [List.getLast?_reverse]; exact reconstruct_path_head top
      | Ok vs =>
        have hlen : (AStar.reconstruct_path top).length ≤ 2 * R.toFinset.card :=
          noFarDup_length_le _ R hnfd hsubR
        have hdec := queMeasure_decrease g target R que closed_nodes top rest vs hs hpp hlen
        rcases ih (rest ++ vs) (closed_nodes ++ [top]) (by omega)
          (invC4_continue g start target R hR que closed_nodes top rest vs hs hpp hinv)
          with ⟨fuel, hfuel⟩
        refine ⟨fuel + 1, ?_⟩
        unfold AStar.runLoop
        rw [step_eq_of_sort g target que closed_nodes top rest hs, hpp]
        exact hfuel

/-- C4: for a generator reaching only finitely many positions from
`start` (`R` lists them), if no chain from `start` satisfies the target
specification, the run terminates with the absence value (the Rust
`None`): the frontier empties after finitely many iterations. -/
theorem C4_no_path_terminates (g : PathGenerator) (start : Pos) (target : Target)
    (R : List Pos) (hR : ReachSet g start R)
    (hno : ∀ l, ¬ satisfyingChainFrom g target start l) :
    ∃ fuel, AStar.run g start target fuel = some none := by
  have hinv0 : InvC4 g start R
      [Node.new start (g.calculate_heuristic_cost start target)] [] := by
    intro n hn
    rw [List.mem_singleton.mp hn]
    refine ⟨nodeOK_start g start _, ⟨by simp, trivial⟩, ?_, ?_⟩
    · intro x hx
      rcases List.mem_singleton.mp hx with rfl
      exact hR.1
    · intro x hx
      cases hx
  exact runLoop_exhausts g target start R hR hno
    (queMeasure g R [Node.new start (g.calculate_heuristic_cost start target)])
    _ [] (Nat.le_refl _) hinv0

/-- Witness for C4: a generator with no neighbors anywhere and a target
different from the start. -/
theorem C4_no_path_terminates_witness :
    ∃ fuel, AStar.run noNeighbors (0, 0) (some 1, some 1) fuel = some none := by
  apply C4_no_path_terminates noNeighbors (0, 0) (some 1, some 1) [(0, 0)]
  · exact ⟨by decide, by decide⟩
  · intro l hl
    rcases hl with ⟨hchain, hhead, e, hlast, htarget⟩
    cases l with
    | nil => cases hhead
    | cons a l1 =>
      have ha : a = (0, 0) := by simpa using hhead
      subst ha
      cases l1 with
      | nil =>
        have he : e = (0, 0) := by simpa using hlast.symm
        subst he
        exact absurd htarget (by decide)
      | cons b l2 =>
        have hb : (noNeighbors.generate_paths (0, 0)).contains b = true := by
          simp only [isChain, Bool.and_eq_true] at hchain
          exact hchain.1
        simp [noNeighbors] at hb

/-- C5: on the embedded map fixture (blocked cell `(2, 2)`, uniform step
cost 1, the fixture's xor-and-square-root heuristic), the run from
`(0, 0)` to the exact target `(3, 3)` returns the path
`[(3,3), (2,3), (1,2), (1,1), (0,0)]` in target-to-start order, with
accumulated cost 4.  Fuel 75 covers the 75 loop iterations the run
takes. -/
theorem C5_concrete_scenario :
    AStar.run map_fixture (0, 0) (some 3, some 3) 75 =
      some (some [(3, 3), (2, 3), (1, 2), (1, 1), (0, 0)]) ∧
    pathCostRev map_fixture [(3, 3), (2, 3), (1, 2), (1, 1), (0, 0)] = 4 := by
  refine ⟨by decide, by decide⟩
